import Mathlib

/-!
Verification of the loxide lexical scanner (src/error.rs, src/scanner.rs).

The Rust source text is modelled as a `List Char` of Unicode scalar values
(Lean's `Char` is exactly a Unicode scalar value, as is Rust's `char`).
Rust byte offsets into the UTF-8 buffer are modelled through `Char.utf8Size`,
and Rust's `str::get` byte-range slicing is modelled by `sliceBytes`, which
returns `none` exactly when an end of the range is out of bounds or is not a
character boundary — the same conditions under which Rust's `get` returns
`None`.

Machine integers (`usize`) are modelled as `Nat`; the one subtraction the
code performs is `saturating_sub`, which coincides with `Nat` subtraction.
-/

namespace Loxide

/-- The quote character `"` (byte 34), written via `Char.ofNat`. -/
def dquote : Char := Char.ofNat 34

/-- The space character (byte 32), written via `Char.ofNat`. -/
def spaceChar : Char := Char.ofNat 32

/-- `LoxErrorKind` from error.rs.  `invalidNumber` carries the lexeme start
and the offending lexeme text (Rust: `InvalidNumber { start, s }`). -/
inductive LoxErrorKind where
  | unexpectedCharacter (c : Char)
  | unterminatedString (start : Nat)
  | invalidNumber (start : Nat) (s : String)
  | unexpectedEof
  | invalidInput
deriving DecidableEq

/-- `LoxError` from error.rs: a kind plus line, column and an optional
location label (Rust `location: Option<String>`). -/
structure LoxError where
  kind : LoxErrorKind
  location : Option String
  line : Nat
  column : Nat
deriving DecidableEq

/-- `Display for LoxErrorKind` from error.rs (the `{message}` part of a
diagnostic).  Apostrophes are written with the `\x27` escape. -/
def LoxErrorKind.msg : LoxErrorKind → String
  | .unexpectedCharacter c => "Unexpected character \x27" ++ c.toString ++ "\x27"
  | .unterminatedString _ => "Unterminated string"
  | .invalidNumber _ s => "Invalid number: \x27" ++ s ++ "\x27"
  | .unexpectedEof => "Unexpected end of file"
  | .invalidInput => "Invalid input, damn"

/-- `Display for LoxError` from error.rs: with a location label the code
formats `"[{location} at {line}:{column}] {kind}"`, without one it formats
`"[{line}:{column}] {kind}"`. -/
def LoxError.display (e : LoxError) : String :=
  match e.location with
  | some l =>
      "[" ++ l ++ " at " ++ toString e.line ++ ":" ++ toString e.column ++ "] " ++ e.kind.msg
  | none => "[" ++ toString e.line ++ ":" ++ toString e.column ++ "] " ++ e.kind.msg

/-- `LoxError::span` from error.rs, an inclusive range modelled as a pair:
`UnterminatedString`/`InvalidNumber` expand back to the stored lexeme start,
every other kind is the single point at `column`. -/
def LoxError.span (e : LoxError) : Nat × Nat :=
  match e.kind with
  | .invalidNumber st _ => (st, e.column)
  | .unterminatedString st => (st, e.column)
  | .unexpectedCharacter _ => (e.column, e.column)
  | .unexpectedEof => (e.column, e.column)
  | .invalidInput => (e.column, e.column)

/-- `TokenKind` from scanner.rs.  Number literals are parsed by Rust with
`str::parse::<f64>`; for the lexemes this scanner produces (a digit run,
optionally a dot and a second digit run) that parse always succeeds, and on
the small literals appearing in this development its value is the exact
decimal value, so the payload is modelled as the exact rational. -/
inductive TokenKind where
  | leftParen
  | rightParen
  | leftBrace
  | rightBrace
  | comma
  | dot
  | minus
  | plus
  | semicolon
  | slash
  | star
  | bang
  | bangEqual
  | equal
  | equalEqual
  | greater
  | greaterEqual
  | less
  | lessEqual
  | identifier (s : List Char)
  | string (s : List Char)
  | number (q : ℚ)
  | kwAnd
  | kwClass
  | kwElse
  | kwFalse
  | kwFun
  | kwFor
  | kwIf
  | kwNil
  | kwOr
  | kwPrint
  | kwReturn
  | kwSuper
  | kwThis
  | kwTrue
  | kwVar
  | kwWhile
  | eof
deriving DecidableEq

/-- `Token` from scanner.rs: a kind plus an inclusive character-index span
(`RangeInclusive<usize>`), modelled as a pair (start, end). -/
structure Token where
  kind : TokenKind
  span : Nat × Nat
deriving DecidableEq

instance : DecidableEq (Except LoxError Token) := fun a b =>
  match a, b with
  | .ok x, .ok y =>
      if h : x = y then .isTrue (by rw [h]) else .isFalse (by simp [h])
  | .ok _, .error _ => .isFalse (by simp)
  | .error _, .ok _ => .isFalse (by simp)
  | .error x, .error y =>
      if h : x = y then .isTrue (by rw [h]) else .isFalse (by simp [h])

/-- Total UTF-8 byte length of a character list (Rust `str::len`). -/
def utf8ByteLen (s : List Char) : Nat := (s.map Char.utf8Size).sum

/-- The characters occupying the first `n` bytes of `s`, or `none` when `n`
overruns `s` or falls inside a character (not a UTF-8 boundary). -/
def takeBytes : List Char → Nat → Option (List Char)
  | _, 0 => some []
  | [], _ => none
  | c :: cs, n =>
      if c.utf8Size ≤ n then (takeBytes cs (n - c.utf8Size)).map (c :: ·) else none

/-- Drop the first `n` bytes of `s`, or `none` when `n` overruns `s` or is
not a UTF-8 character boundary. -/
def dropBytes : List Char → Nat → Option (List Char)
  | s, 0 => some s
  | [], _ => none
  | c :: cs, n => if c.utf8Size ≤ n then dropBytes cs (n - c.utf8Size) else none

/-- Rust `source.get(a..=b)`, i.e. the bytes in `[a, b+1)`: `some` exactly
when both ends are in-bounds character boundaries with `a ≤ b + 1`
(Rust returns the empty slice for `get(a..=a-1)`). -/
def sliceBytes (s : List Char) (a b : Nat) : Option (List Char) :=
  if a ≤ b + 1 then (dropBytes s a).bind (fun t => takeBytes t (b + 1 - a)) else none

/-- The mutable state of `ScannerIter` (scanner.rs).  `rest` models the
`CharIndices` iterator (the characters not yet consumed), `nextByte` is the
byte offset that iterator would report for the next character, `cbyte` is
`current_byte` (byte offset of the last consumed character), `cchar` is
`current_char`, `line` is `current_line`. -/
structure ScanState where
  rest : List Char
  line : Nat
  cchar : Nat
  cbyte : Nat
  nextByte : Nat
deriving DecidableEq

/-- `ScannerIter::advance`: consume one scalar; `none` models the
`UnexpectedEof` error return (the counters are untouched in that case). -/
def ScanState.advance (s : ScanState) : Option (Char × ScanState) :=
  match s.rest with
  | [] => none
  | c :: cs =>
      some (c, { rest := cs, line := s.line, cchar := s.cchar + 1,
                 cbyte := s.nextByte, nextByte := s.nextByte + c.utf8Size })

/-- `ScannerIter::error`: build a `LoxError` at the current position,
`column = current_char.saturating_sub(1)` (Nat subtraction saturates). -/
def ScanState.mkError (s : ScanState) (loc : Option String) (k : LoxErrorKind) : LoxError :=
  { kind := k, location := loc, line := s.line, column := s.cchar - 1 }

/-- `ScannerIter::find`: advance only when the next character is exactly
`expected`. -/
def ScanState.find (s : ScanState) (expected : Char) : Bool × ScanState :=
  match s.advance with
  | some (c, s2) => if c = expected then (true, s2) else (false, s)
  | none => (false, s)

/-- Loop body of `ScannerIter::consume_until`, structurally recursive on the
remaining characters; consuming a newline increments the line counter. -/
def consumeUntilAux (expected : Char) :
    List Char → Nat → Nat → Nat → Nat → Bool × ScanState
  | [], line, cchar, cbyte, nextByte => (false, ⟨[], line, cchar, cbyte, nextByte⟩)
  | c :: cs, line, cchar, cbyte, nextByte =>
      if c = expected then (true, ⟨c :: cs, line, cchar, cbyte, nextByte⟩)
      else
        consumeUntilAux expected cs (if c = '\n' then line + 1 else line)
          (cchar + 1) nextByte (nextByte + c.utf8Size)

/-- `ScannerIter::consume_until`: advance until `expected` is next (leaving
it unconsumed, result `true`) or the input runs out (result `false`). -/
def ScanState.consumeUntil (s : ScanState) (expected : Char) : Bool × ScanState :=
  consumeUntilAux expected s.rest s.line s.cchar s.cbyte s.nextByte

/-- Rust `matches!(c, '0'..='9')`. -/
def isDigitChar (c : Char) : Bool := 48 ≤ c.toNat && c.toNat ≤ 57

/-- Rust `matches!(c, 'a'..='z' | 'A'..='Z')`. -/
def isAlphaChar (c : Char) : Bool :=
  (97 ≤ c.toNat && c.toNat ≤ 122) || (65 ≤ c.toNat && c.toNat ≤ 90)

/-- The digit-run loop in `ScannerIter::number`
(`while matches!(self.peek(), Some('0'..='9')) { self.advance()?; }`). -/
def skipDigitsAux : List Char → Nat → Nat → Nat → Nat → ScanState
  | [], line, cchar, cbyte, nextByte => ⟨[], line, cchar, cbyte, nextByte⟩
  | c :: cs, line, cchar, cbyte, nextByte =>
      if isDigitChar c then
        skipDigitsAux cs line (cchar + 1) nextByte (nextByte + c.utf8Size)
      else ⟨c :: cs, line, cchar, cbyte, nextByte⟩

/-- Digit-run loop lifted to a state transformer. -/
def ScanState.skipDigits (s : ScanState) : ScanState :=
  skipDigitsAux s.rest s.line s.cchar s.cbyte s.nextByte

/-- The letter/digit-run loop in `ScannerIter::ident`. -/
def skipAlnumAux : List Char → Nat → Nat → Nat → Nat → ScanState
  | [], line, cchar, cbyte, nextByte => ⟨[], line, cchar, cbyte, nextByte⟩
  | c :: cs, line, cchar, cbyte, nextByte =>
      if isDigitChar c || isAlphaChar c then
        skipAlnumAux cs line (cchar + 1) nextByte (nextByte + c.utf8Size)
      else ⟨c :: cs, line, cchar, cbyte, nextByte⟩

/-- Letter/digit-run loop lifted to a state transformer. -/
def ScanState.skipAlnum (s : ScanState) : ScanState :=
  skipAlnumAux s.rest s.line s.cchar s.cbyte s.nextByte

/-- Value of a scanned number lexeme (a digit run, optionally `.` and a
second digit run), as an exact rational.  Rust parses the same text with
`parse::<f64>` (with a `u64` fallback); on such lexemes that parse never
fails, so the `InvalidNumber` error branch of `ScannerIter::number` is dead
code and is not reproduced here. -/
def digitsToNat : List Char → Nat → Nat
  | [], acc => acc
  | c :: cs, acc => digitsToNat cs (acc * 10 + (c.toNat - 48))

/-- See `digitsToNat`: integer part plus scaled fractional part. -/
def numberValue (lex : List Char) : ℚ :=
  let ip := lex.takeWhile (fun c => c ≠ '.')
  let fp := (lex.dropWhile (fun c => c ≠ '.')).drop 1
  (digitsToNat ip 0 : ℚ) + (digitsToNat fp 0 : ℚ) / (10 : ℚ) ^ fp.length

/-- Keyword table of `ScannerIter::ident` (exact, case-sensitive match). -/
def keywordOrIdent (lex : List Char) : TokenKind :=
  if lex = "and".toList then .kwAnd
  else if lex = "class".toList then .kwClass
  else if lex = "else".toList then .kwElse
  else if lex = "false".toList then .kwFalse
  else if lex = "fun".toList then .kwFun
  else if lex = "for".toList then .kwFor
  else if lex = "if".toList then .kwIf
  else if lex = "nil".toList then .kwNil
  else if lex = "or".toList then .kwOr
  else if lex = "print".toList then .kwPrint
  else if lex = "return".toList then .kwReturn
  else if lex = "super".toList then .kwSuper
  else if lex = "this".toList then .kwThis
  else if lex = "true".toList then .kwTrue
  else if lex = "var".toList then .kwVar
  else if lex = "while".toList then .kwWhile
  else .identifier lex

/-- `ScannerIter::string` (called after the opening quote was consumed, with
`start` the quote's character index): find the closing quote, consume it,
and slice the bytes strictly between the quotes.  Every Rust early return
leaves the mutated scanner state behind, so each branch returns its state. -/
def stringFn (loc : Option String) (src : List Char) (start : Nat) (s : ScanState) :
    Except LoxError Token × ScanState :=
  let startByte := s.cbyte + 1
  match s.consumeUntil dquote with
  | (false, s1) => (.error (s1.mkError loc (.unterminatedString start)), s1)
  | (true, s1) =>
      let endByte := s1.cbyte
      match s1.advance with
      | none => (.error (s1.mkError loc .unexpectedEof), s1)
      | some (_, s2) =>
          match sliceBytes src startByte endByte with
          | none => (.error (s2.mkError loc .invalidInput), s2)
          | some str => (.ok ⟨.string str, (start, s2.cchar - 1)⟩, s2)

/-- The fractional-part step of `ScannerIter::number`: when the next two
characters are a dot and a digit, consume the dot and a second maximal
digit run, else leave the state unchanged. -/
def numberDotStep (s1 : ScanState) : ScanState :=
  match s1.rest with
  | c :: d :: _ =>
      if c = '.' && isDigitChar d then
        ScanState.skipDigits
          ⟨(s1.rest).drop 1, s1.line, s1.cchar + 1, s1.nextByte,
            s1.nextByte + Char.utf8Size '.'⟩
      else s1
  | _ => s1

/-- `ScannerIter::number` (called after the first digit was consumed, with
`start` its character index): maximal digit run, then a dot and a second
maximal digit run only when the dot is immediately followed by a digit. -/
def numberFn (loc : Option String) (src : List Char) (start : Nat) (s : ScanState) :
    Except LoxError Token × ScanState :=
  let startByte := s.cbyte
  let s1 := s.skipDigits
  let s2 := numberDotStep s1
  let endByte := s2.cbyte
  match sliceBytes src startByte endByte with
  | none => (.error (s2.mkError loc .invalidInput), s2)
  | some lex => (.ok ⟨.number (numberValue lex), (start, s2.cchar - 1)⟩, s2)

/-- `ScannerIter::ident` (called after the first letter was consumed, with
`start` its character index): maximal letter/digit run, then the keyword
table. -/
def identFn (loc : Option String) (src : List Char) (start : Nat) (s : ScanState) :
    Except LoxError Token × ScanState :=
  let startByte := s.cbyte
  let s1 := s.skipAlnum
  let endByte := s1.cbyte
  match sliceBytes src startByte endByte with
  | none => (.error (s1.mkError loc .invalidInput), s1)
  | some lex => (.ok ⟨keywordOrIdent lex, (start, s1.cchar - 1)⟩, s1)

/-- The `token!` macro of `ScannerIter::next_token` for a one-character
token: span `lexeme_start ..= current_char - 1`. -/
def oneTok (k : TokenKind) (start : Nat) (s : ScanState) :
    Except LoxError Token × ScanState :=
  (.ok ⟨k, (start, s.cchar - 1)⟩, s)

/-- The `token!(c => two, else => one)` form: `find` the second character
and emit the two-character kind on success. -/
def twoTok (s : ScanState) (expected : Char) (two one : TokenKind) (start : Nat) :
    Except LoxError Token × ScanState :=
  match s.find expected with
  | (true, s2) => oneTok two start s2
  | (false, s2) => oneTok one start s2

/-- The character dispatch of `ScannerIter::next_token`, after one character
`c` has been consumed (moving `s` to `s1`); `start` is `lexeme_start` and
`recur` is the recursive `self.next_token()` call of the whitespace, newline
and comment arms. -/
def dispatch (loc : Option String) (src : List Char)
    (recur : ScanState → Except LoxError Token × ScanState)
    (start : Nat) (c : Char) (s1 : ScanState) : Except LoxError Token × ScanState :=
  if c = '(' then oneTok .leftParen start s1
  else if c = ')' then oneTok .rightParen start s1
  else if c = '\x7b' then oneTok .leftBrace start s1
  else if c = '\x7d' then oneTok .rightBrace start s1
  else if c = ',' then oneTok .comma start s1
  else if c = '.' then oneTok .dot start s1
  else if c = '-' then oneTok .minus start s1
  else if c = '+' then oneTok .plus start s1
  else if c = ';' then oneTok .semicolon start s1
  else if c = '*' then oneTok .star start s1
  else if c = '!' then twoTok s1 '=' .bangEqual .bang start
  else if c = '=' then twoTok s1 '=' .equalEqual .equal start
  else if c = '<' then twoTok s1 '=' .lessEqual .less start
  else if c = '>' then twoTok s1 '=' .greaterEqual .greater start
  else if c = '/' then
    match s1.find '/' with
    | (true, s2) =>
        let r := s2.consumeUntil '\n'
        recur r.2
    | (false, s2) => oneTok .slash start s2
  else if c = spaceChar ∨ c = '\r' ∨ c = '\t' then recur s1
  else if c = '\n' then recur { s1 with line := s1.line + 1 }
  else if c = dquote then stringFn loc src start s1
  else if isDigitChar c then numberFn loc src start s1
  else if isAlphaChar c then identFn loc src start s1
  else (.error (s1.mkError loc (.unexpectedCharacter c)), s1)

/-- `ScannerIter::next_token`.  The whitespace / newline / comment arms
recurse within the same invocation, paid for by `fuel`: every recursive
call first consumes at least one character, so any `fuel > s.rest.length`
makes the fuel-exhaustion branch unreachable; that branch conservatively
returns the same `UnexpectedEof` error the empty input produces. -/
def nextToken (loc : Option String) (src : List Char) :
    Nat → ScanState → Except LoxError Token × ScanState
  | 0, s => (.error (s.mkError loc .unexpectedEof), s)
  | fuel + 1, s =>
      match s.advance with
      | none => (.error (s.mkError loc .unexpectedEof), s)
      | some (c, s1) => dispatch loc src (nextToken loc src fuel) s.cchar c s1

/-- `ScannerIter::try_next_token`: the internal `UnexpectedEof` sentinel is
translated to `none` (end of sequence); everything else passes through. -/
def tryNextToken (loc : Option String) (src : List Char) (fuel : Nat) (s : ScanState) :
    Option (Except LoxError Token) × ScanState :=
  match nextToken loc src fuel s with
  | (.ok t, s2) => (some (.ok t), s2)
  | (.error e, s2) =>
      if e.kind = .unexpectedEof then (none, s2) else (some (.error e), s2)

/-- `<ScannerIter as Iterator>::next`, iterated: the item sequence a Rust
consumer (`for` / `collect`) observes, i.e. items until the first `None`.
When the character iterator is exhausted the un-terminated cursor yields one
`Eof` token whose span is `source.len()..=source.len()` — Rust's `str::len`,
the *byte* length — and is then terminated (no further items); otherwise it
yields what `try_next_token` produced, stopping at `None`. -/
def scanLoop (loc : Option String) (src : List Char) :
    Nat → ScanState → List (Except LoxError Token)
  | 0, _ => []
  | fuel + 1, s =>
      match s.rest with
      | [] => [.ok ⟨.eof, (utf8ByteLen src, utf8ByteLen src)⟩]
      | _ :: _ =>
          match tryNextToken loc src (s.rest.length + 1) s with
          | (none, _) => []
          | (some item, s2) => item :: scanLoop loc src fuel s2

/-- `Scanner::scan(...)` drained into a list: the full item sequence of one
scan of `src` with location label `loc`.  Each loop iteration with a
non-empty `rest` consumes at least one character, so `src.length + 1` fuel
is never exhausted. -/
def scanList (loc : Option String) (src : List Char) : List (Except LoxError Token) :=
  scanLoop loc src (src.length + 1) ⟨src, 0, 0, 0, 0⟩

/-- The tokens among a scan's items (errors are not tokens). -/
def okTokens (items : List (Except LoxError Token)) : List Token :=
  items.filterMap (fun i => match i with | .ok t => some t | .error _ => none)

/-- All characters of `src` are single UTF-8 bytes (the ASCII range). -/
def AsciiSrc (src : List Char) : Prop := ∀ c ∈ src, c.utf8Size = 1

/-- The bookkeeping invariant tying a reachable scanner state to the source:
`rest` is the un-consumed suffix, `nextByte` is the byte offset of the next
character, `cbyte` the byte offset of the last consumed character (0 before
any character was consumed, as in `ScannerIter::new`). -/
structure Inv (src : List Char) (s : ScanState) : Prop where
  rest_eq : s.rest = src.drop s.cchar
  cchar_le : s.cchar ≤ src.length
  next_eq : s.nextByte = utf8ByteLen (src.take s.cchar)
  cbyte_eq : s.cbyte = utf8ByteLen (src.take (s.cchar - 1))

/-- What one `next_token` call guarantees, relative to the state `s` it was
entered in: the invariant is maintained, the character cursor never moves
backwards, a produced token's span starts at or after `s.cchar` and strictly
before the final cursor, and on an all-ASCII source no produced error is the
defensive `InvalidInput`. -/
def NTSpec (src : List Char) (s : ScanState) (r : Except LoxError Token × ScanState) : Prop :=
  Inv src r.2 ∧ s.cchar ≤ r.2.cchar ∧
    (∀ t, r.1 = .ok t → s.cchar ≤ t.span.1 ∧ t.span.1 < r.2.cchar) ∧
    (AsciiSrc src → ∀ e, r.1 = .error e → e.kind ≠ .invalidInput)

/-- The `current_byte` value produced by running `consume_until` over a
consumed character list, starting from `cbyte = cb`, `nextByte = nb`:
each consumed character moves `cbyte` to the old `nextByte`. -/
def lastByteAux (cb nb : Nat) : List Char → Nat
  | [] => cb
  | c :: cs => lastByteAux nb (nb + c.utf8Size) cs

/-- **C1** (code bug evidence).  The scan of a single space yields *no*
items at all: the cursor's first pull hits the internal `UnexpectedEof`
while skipping the whitespace, which `try_next_token` turns into
end-of-sequence before the `EndOfInput` branch can ever run — so the last
yielded item is not an `EndOfInput` token.  Moreover the `EndOfInput` span
uses `source.len()` (UTF-8 *byte* length): on the one-character source `é`
it is `[2, 2]`, not `[1, 1]` as the character count would give. -/
theorem scan_drops_eof_after_trailing_trivia :
    scanList none [spaceChar] = [] ∧
    scanList none ['é'] =
      [.error ⟨.unexpectedCharacter 'é', none, 0, 0⟩, .ok ⟨.eof, (2, 2)⟩] ∧
    ['é'].length = 1 :=
  ⟨rfl, rfl, rfl⟩

/-- **C2** (counterexample).  Scanning the three-character source `"é"`
(a string literal whose content is one two-byte character) yields an
`InvalidInput` (`InvalidInternalSlice`) error: `string` slices up to the
byte offset at which the last content character *starts*, which is not a
character boundary when that character is multi-byte. -/
theorem scan_invalid_slice_reachable :
    scanList none (dquote :: 'é' :: [dquote]) =
      [.error ⟨.invalidInput, none, 0, 2⟩, .ok ⟨.eof, (4, 4)⟩] :=
  rfl

/-- **C3** (counterexample).  With a location label present the diagnostic
text is *not* `"[{location}:{line}:{column}] {message}"`: at location
`main.lox`, line 1, column 2, kind `UnexpectedEof`, the code renders
`"[main.lox at 1:2] Unexpected end of file"`. -/
theorem display_format_counterexample :
    LoxError.display ⟨.unexpectedEof, some "main.lox", 1, 2⟩ ≠
      "[main.lox:1:2] Unexpected end of file" := by
  decide

/-- **C3** (amended).  The diagnostic text equals
`"[{location} at {line}:{column}] {message}"` when a location label is
present, and `"[{line}:{column}] {message}"` when it is absent. -/
theorem display_format_amended :
    (∀ (k : LoxErrorKind) (loc : String) (line col : Nat),
      LoxError.display ⟨k, some loc, line, col⟩ =
        "[" ++ loc ++ " at " ++ toString line ++ ":" ++ toString col ++ "] " ++ k.msg) ∧
    (∀ (k : LoxErrorKind) (line col : Nat),
      LoxError.display ⟨k, none, line, col⟩ =
        "[" ++ toString line ++ ":" ++ toString col ++ "] " ++ k.msg) :=
  ⟨fun _ _ _ _ => rfl, fun _ _ _ => rfl⟩

/-- **C6**.  Scanning `"abc` (opening quote, no closing quote) yields an
`UnterminatedString` error whose anchor (the stored lexeme start) is the
character index 0 of the opening quote, followed directly by `EndOfInput`
and nothing else; and the derived span of `UnterminatedString` and
`InvalidNumber` errors expands back to the stored lexeme start, while every
other kind is the single point at `column`. -/
theorem unterminated_string_and_error_spans :
    scanList none (dquote :: 'a' :: 'b' :: 'c' :: []) =
      [.error ⟨.unterminatedString 0, none, 0, 3⟩, .ok ⟨.eof, (4, 4)⟩] ∧
    (∀ st loc line col, LoxError.span ⟨.unterminatedString st, loc, line, col⟩ = (st, col)) ∧
    (∀ st lex loc line col,
      LoxError.span ⟨.invalidNumber st lex, loc, line, col⟩ = (st, col)) ∧
    (∀ c loc line col, LoxError.span ⟨.unexpectedCharacter c, loc, line, col⟩ = (col, col)) ∧
    (∀ loc line col, LoxError.span ⟨.unexpectedEof, loc, line, col⟩ = (col, col)) ∧
    (∀ loc line col, LoxError.span ⟨.invalidInput, loc, line, col⟩ = (col, col)) := by
  exact ⟨rfl, fun _ _ _ _ => rfl, fun _ _ _ _ _ => rfl, fun _ _ _ _ => rfl,
    fun _ _ _ => rfl, fun _ _ _ => rfl⟩

/-- **C7**.  Scanning `1.` yields `[Number(1), Dot, EndOfInput]`: the
trailing dot with no following digit is not consumed as part of the number
lexeme but left for the next token. -/
theorem number_trailing_dot :
    scanList none ("1.".toList) =
      [.ok ⟨.number 1, (0, 0)⟩, .ok ⟨.dot, (1, 1)⟩, .ok ⟨.eof, (2, 2)⟩] := by
  have h49 : Char.toNat '1' = 49 := rfl
  have hv : numberValue ('1' :: []) = 1 := by norm_num [numberValue, digitsToNat, h49]
  rw [← hv]
  rfl

/-- **C8**.  Scanning `@ 1` yields an `UnexpectedCharacter('@')` error,
then `Number(1)`, then `EndOfInput`: a lexical error does not suppress the
tokens after it, and scanning resumes right after the consumed offender. -/
theorem unexpected_char_recovery :
    scanList none ("@ 1".toList) =
      [.error ⟨.unexpectedCharacter '@', none, 0, 0⟩,
       .ok ⟨.number 1, (2, 2)⟩, .ok ⟨.eof, (3, 3)⟩] := by
  have h49 : Char.toNat '1' = 49 := rfl
  have hv : numberValue ('1' :: []) = 1 := by norm_num [numberValue, digitsToNat, h49]
  rw [← hv]
  rfl

/-- **C9**.  Keyword classification is an exact match: `classic` scans to
`Identifier("classic")` (no prefix match of `class`), while `class` scans
to the `Class` keyword token. -/
theorem keyword_exact_match :
    scanList none ("classic".toList) =
      [.ok ⟨.identifier ("classic".toList), (0, 6)⟩, .ok ⟨.eof, (7, 7)⟩] ∧
    scanList none ("class".toList) =
      [.ok ⟨.kwClass, (0, 4)⟩, .ok ⟨.eof, (5, 5)⟩] :=
  ⟨rfl, rfl⟩

/-- **C10**.  Scanning the two-character source `""` succeeds with a
`String` token holding the empty text and span `[0, 1]`, then `EndOfInput`;
the underlying byte slice `get(1..=0)`, whose start exceeds its end, is the
empty slice rather than an error. -/
theorem empty_string_literal :
    scanList none [dquote, dquote] =
      [.ok ⟨.string [], (0, 1)⟩, .ok ⟨.eof, (2, 2)⟩] ∧
    sliceBytes [dquote, dquote] 1 0 = some [] :=
  ⟨rfl, rfl⟩

theorem utf8ByteLen_nil : utf8ByteLen [] = 0 := rfl

theorem utf8ByteLen_cons (c : Char) (cs : List Char) :
    utf8ByteLen (c :: cs) = c.utf8Size + utf8ByteLen cs := by
  simp [utf8ByteLen]

theorem utf8ByteLen_append (xs ys : List Char) :
    utf8ByteLen (xs ++ ys) = utf8ByteLen xs + utf8ByteLen ys := by
  simp [utf8ByteLen]

theorem length_le_utf8ByteLen (xs : List Char) : xs.length ≤ utf8ByteLen xs := by
  induction xs with
  | nil => simp [utf8ByteLen]
  | cons c cs ih =>
      have hc := Char.utf8Size_pos c
      simp only [utf8ByteLen_cons, List.length_cons]
      omega

theorem utf8ByteLen_eq_length (xs : List Char) (h : ∀ c ∈ xs, c.utf8Size = 1) :
    utf8ByteLen xs = xs.length := by
  induction xs with
  | nil => rfl
  | cons c cs ih =>
      have hc := h c (by simp)
      have hcs := ih (fun d hd => h d (by simp [hd]))
      simp only [utf8ByteLen_cons, List.length_cons, hc, hcs]
      omega

theorem inv_init (src : List Char) : Inv src ⟨src, 0, 0, 0, 0⟩ := by
  refine ⟨by simp, by simp, by simp [utf8ByteLen], by simp [utf8ByteLen]⟩

theorem Inv.step {src : List Char} {c : Char} {cs : List Char}
    {line cchar cbyte nb : Nat}
    (h : Inv src ⟨c :: cs, line, cchar, cbyte, nb⟩) (line2 : Nat) :
    Inv src ⟨cs, line2, cchar + 1, nb, nb + c.utf8Size⟩ := by
  obtain ⟨hrest, hle, hnext, hcb⟩ := h
  simp only at hrest hle hnext hcb
  have hlt : cchar < src.length := by
    rcases Nat.lt_or_ge cchar src.length with h1 | h1
    · exact h1
    · rw [List.drop_eq_nil_of_le h1] at hrest
      cases hrest
  have hget : src[cchar]? = some c := by
    rw [← List.head?_drop, ← hrest]
    rfl
  refine ⟨?_, ?_, ?_, ?_⟩
  · show cs = src.drop (cchar + 1)
    rw [← List.tail_drop, ← hrest]
    rfl
  · show cchar + 1 ≤ src.length
    omega
  · show nb + c.utf8Size = utf8ByteLen (src.take (cchar + 1))
    rw [List.take_succ, hget, utf8ByteLen_append, hnext]
    simp [utf8ByteLen]
  · show nb = utf8ByteLen (src.take (cchar + 1 - 1))
    simpa using hnext

theorem Inv.withLine {src : List Char} {s : ScanState} (h : Inv src s) (l2 : Nat) :
    Inv src { s with line := l2 } :=
  ⟨h.rest_eq, h.cchar_le, h.next_eq, h.cbyte_eq⟩

theorem advance_some {src : List Char} {s : ScanState} {c : Char} {s2 : ScanState}
    (h : Inv src s) (hadv : s.advance = some (c, s2)) :
    Inv src s2 ∧ s2.cchar = s.cchar + 1 := by
  obtain ⟨rest, line, cchar, cbyte, nb⟩ := s
  cases rest with
  | nil => simp [ScanState.advance] at hadv
  | cons a as =>
      simp only [ScanState.advance, Option.some.injEq, Prod.mk.injEq] at hadv
      obtain ⟨rfl, rfl⟩ := hadv
      exact ⟨h.step line, rfl⟩

theorem find_spec {src : List Char} {s : ScanState} (h : Inv src s) (e : Char) :
    Inv src (s.find e).2 ∧ s.cchar ≤ (s.find e).2.cchar := by
  cases hadv : s.advance with
  | none =>
      have hfe : s.find e = (false, s) := by
        simp [ScanState.find, hadv]
      rw [hfe]
      exact ⟨h, le_refl _⟩
  | some p =>
      obtain ⟨c, s2⟩ := p
      obtain ⟨h2, hc2⟩ := advance_some h hadv
      by_cases hce : c = e
      · have hfe : s.find e = (true, s2) := by
          simp [ScanState.find, hadv, hce]
        rw [hfe]
        refine ⟨h2, ?_⟩
        show s.cchar ≤ s2.cchar
        omega
      · have hfe : s.find e = (false, s) := by
          simp [ScanState.find, hadv, hce]
        rw [hfe]
        exact ⟨h, le_refl _⟩

theorem consumeUntilAux_inv (e : Char) (src : List Char) :
    ∀ (rest : List Char) (line cchar cbyte nb : Nat),
      Inv src ⟨rest, line, cchar, cbyte, nb⟩ →
      Inv src (consumeUntilAux e rest line cchar cbyte nb).2 ∧
        cchar ≤ (consumeUntilAux e rest line cchar cbyte nb).2.cchar := by
  intro rest
  induction rest with
  | nil =>
      intro l cc cb nb h
      exact ⟨h, le_refl _⟩
  | cons c cs ih =>
      intro l cc cb nb h
      by_cases hc : c = e
      · simp only [consumeUntilAux, if_pos hc]
        exact ⟨h, le_refl _⟩
      · simp only [consumeUntilAux, if_neg hc]
        have h2 := h.step (if c = '\n' then l + 1 else l)
        obtain ⟨ha, hb⟩ := ih (if c = '\n' then l + 1 else l) (cc + 1) nb
          (nb + c.utf8Size) h2
        exact ⟨ha, by omega⟩

theorem consumeUntil_inv {src : List Char} {s : ScanState} (h : Inv src s) (e : Char) :
    Inv src (s.consumeUntil e).2 ∧ s.cchar ≤ (s.consumeUntil e).2.cchar := by
  obtain ⟨rest, line, cchar, cbyte, nb⟩ := s
  exact consumeUntilAux_inv e src rest line cchar cbyte nb h

theorem skipDigitsAux_inv (src : List Char) :
    ∀ (rest : List Char) (line cchar cbyte nb : Nat),
      Inv src ⟨rest, line, cchar, cbyte, nb⟩ →
      Inv src (skipDigitsAux rest line cchar cbyte nb) ∧
        cchar ≤ (skipDigitsAux rest line cchar cbyte nb).cchar := by
  intro rest
  induction rest with
  | nil =>
      intro l cc cb nb h
      exact ⟨h, le_refl _⟩
  | cons c cs ih =>
      intro l cc cb nb h
      by_cases hc : isDigitChar c
      · simp only [skipDigitsAux, if_pos hc]
        obtain ⟨ha, hb⟩ := ih l (cc + 1) nb (nb + c.utf8Size) (h.step l)
        exact ⟨ha, by omega⟩
      · simp only [skipDigitsAux, if_neg hc]
        exact ⟨h, le_refl _⟩

theorem skipDigits_inv {src : List Char} {s : ScanState} (h : Inv src s) :
    Inv src s.skipDigits ∧ s.cchar ≤ s.skipDigits.cchar := by
  obtain ⟨rest, line, cchar, cbyte, nb⟩ := s
  exact skipDigitsAux_inv src rest line cchar cbyte nb h

theorem skipAlnumAux_inv (src : List Char) :
    ∀ (rest : List Char) (line cchar cbyte nb : Nat),
      Inv src ⟨rest, line, cchar, cbyte, nb⟩ →
      Inv src (skipAlnumAux rest line cchar cbyte nb) ∧
        cchar ≤ (skipAlnumAux rest line cchar cbyte nb).cchar := by
  intro rest
  induction rest with
  | nil =>
      intro l cc cb nb h
      exact ⟨h, le_refl _⟩
  | cons c cs ih =>
      intro l cc cb nb h
      by_cases hc : isDigitChar c || isAlphaChar c
      · simp only [skipAlnumAux, if_pos hc]
        obtain ⟨ha, hb⟩ := ih l (cc + 1) nb (nb + c.utf8Size) (h.step l)
        exact ⟨ha, by omega⟩
      · simp only [skipAlnumAux, if_neg hc]
        exact ⟨h, le_refl _⟩

theorem skipAlnum_inv {src : List Char} {s : ScanState} (h : Inv src s) :
    Inv src s.skipAlnum ∧ s.cchar ≤ s.skipAlnum.cchar := by
  obtain ⟨rest, line, cchar, cbyte, nb⟩ := s
  exact skipAlnumAux_inv src rest line cchar cbyte nb h

theorem dropBytes_ascii :
    ∀ (xs : List Char), (∀ c ∈ xs, c.utf8Size = 1) →
      ∀ n, n ≤ xs.length → dropBytes xs n = some (xs.drop n) := by
  intro xs
  induction xs with
  | nil =>
      intro _ n hn
      cases n with
      | zero => simp [dropBytes]
      | succ m => simp at hn
  | cons c cs ih =>
      intro h n hn
      cases n with
      | zero => simp [dropBytes]
      | succ m =>
          have hc := h c (by simp)
          simp only [dropBytes, hc, Nat.le_add_left 1 m, if_pos, List.drop_succ_cons]
          have : m + 1 - 1 = m := by omega
          rw [this]
          exact ih (fun d hd => h d (by simp [hd])) m (by simpa using hn)

theorem takeBytes_ascii :
    ∀ (xs : List Char), (∀ c ∈ xs, c.utf8Size = 1) →
      ∀ n, n ≤ xs.length → takeBytes xs n = some (xs.take n) := by
  intro xs
  induction xs with
  | nil =>
      intro _ n hn
      cases n with
      | zero => simp [takeBytes]
      | succ m => simp at hn
  | cons c cs ih =>
      intro h n hn
      cases n with
      | zero => simp [takeBytes]
      | succ m =>
          have hc := h c (by simp)
          simp only [takeBytes, hc, Nat.le_add_left 1 m, if_pos, List.take_succ_cons]
          have hm : m + 1 - 1 = m := by omega
          rw [hm, ih (fun d hd => h d (by simp [hd])) m (by simpa using hn)]
          rfl

theorem sliceBytes_ascii (src : List Char) (h : ∀ c ∈ src, c.utf8Size = 1)
    {a b : Nat} (hab : a ≤ b + 1) (hb : b + 1 ≤ src.length) :
    sliceBytes src a b = some ((src.drop a).take (b + 1 - a)) := by
  rw [sliceBytes, if_pos hab, dropBytes_ascii src h a (by omega)]
  rw [Option.some_bind]
  exact takeBytes_ascii (src.drop a) (fun d hd => h d (List.mem_of_mem_drop hd))
    (b + 1 - a) (by rw [List.length_drop]; omega)

theorem Inv.cbyte_ascii {src : List Char} {s : ScanState}
    (h : Inv src s) (ha : AsciiSrc src) : s.cbyte = s.cchar - 1 := by
  have hle := h.cchar_le
  rw [h.cbyte_eq, utf8ByteLen_eq_length _ (fun c hc => ha c (List.mem_of_mem_take hc)),
    List.length_take]
  omega

theorem NTSpec.of_le {src : List Char} {s s3 : ScanState}
    {r : Except LoxError Token × ScanState}
    (h : NTSpec src s3 r) (hle : s.cchar ≤ s3.cchar) : NTSpec src s r := by
  obtain ⟨h1, h2, h3, h4⟩ := h
  refine ⟨h1, by omega, ?_, h4⟩
  intro t ht
  obtain ⟨ha, hb⟩ := h3 t ht
  exact ⟨by omega, hb⟩

theorem ntspec_error {src : List Char} {s s2 : ScanState} {loc : Option String}
    {k : LoxErrorKind} (hinv : Inv src s2) (hm : s.cchar ≤ s2.cchar)
    (hk : k ≠ LoxErrorKind.invalidInput) :
    NTSpec src s (.error (s2.mkError loc k), s2) := by
  refine ⟨hinv, hm, ?_, ?_⟩
  · intro t ht
    cases ht
  · intro _ e he
    cases he
    exact hk

theorem ntspec_oneTok {src : List Char} {s s1 : ScanState} {k : TokenKind} {start : Nat}
    (hinv : Inv src s1) (h1 : s.cchar ≤ start) (h2 : start < s1.cchar) :
    NTSpec src s (oneTok k start s1) := by
  refine ⟨hinv, ?_, ?_, ?_⟩
  · show s.cchar ≤ s1.cchar
    omega
  · intro t ht
    cases ht
    exact ⟨h1, h2⟩
  · intro _ e he
    cases he

theorem ntspec_twoTok {src : List Char} {s s1 : ScanState} {e : Char}
    {two one : TokenKind} {start : Nat}
    (hinv : Inv src s1) (h1 : s.cchar ≤ start) (h2 : start < s1.cchar) :
    NTSpec src s (twoTok s1 e two one start) := by
  obtain ⟨hf1, hf2⟩ := find_spec hinv e
  unfold twoTok
  cases hfe : s1.find e with
  | mk found s2 =>
      rw [hfe] at hf1 hf2
      have hf1b : Inv src s2 := hf1
      have hf2b : s1.cchar ≤ s2.cchar := hf2
      cases found
      · exact ntspec_oneTok hf1b h1 (by omega)
      · exact ntspec_oneTok hf1b h1 (by omega)

theorem stringFn_ntspec {src : List Char} {s s1 : ScanState} {loc : Option String}
    {start : Nat} (hinv : Inv src s1) (h1 : s.cchar ≤ start) (h2 : start < s1.cchar) :
    NTSpec src s (stringFn loc src start s1) := by
  obtain ⟨hcu1, hcu2⟩ := consumeUntil_inv hinv dquote
  cases hcu : s1.consumeUntil dquote with
  | mk found s2 =>
      rw [hcu] at hcu1 hcu2
      have hinv2 : Inv src s2 := hcu1
      have hm2 : s1.cchar ≤ s2.cchar := hcu2
      cases found
      · have heq : stringFn loc src start s1 =
            (.error (s2.mkError loc (.unterminatedString start)), s2) := by
          simp [stringFn, hcu]
        rw [heq]
        exact ntspec_error hinv2 (by omega) (by simp)
      · cases hadv : s2.advance with
        | none =>
            have heq : stringFn loc src start s1 =
                (.error (s2.mkError loc .unexpectedEof), s2) := by
              simp [stringFn, hcu, hadv]
            rw [heq]
            exact ntspec_error hinv2 (by omega) (by simp)
        | some p =>
            obtain ⟨c3, s3⟩ := p
            obtain ⟨hinv3, hc3⟩ := advance_some hinv2 hadv
            cases hsl : sliceBytes src (s1.cbyte + 1) s2.cbyte with
            | none =>
                have heq : stringFn loc src start s1 =
                    (.error (s3.mkError loc .invalidInput), s3) := by
                  simp [stringFn, hcu, hadv, hsl]
                rw [heq]
                refine ⟨hinv3, ?_, ?_, ?_⟩
                · show s.cchar ≤ s3.cchar
                  omega
                · intro t ht
                  cases ht
                · intro hascii e he
                  exfalso
                  have ha1 : s1.cbyte = s1.cchar - 1 := hinv.cbyte_ascii hascii
                  have ha2 : s2.cbyte = s2.cchar - 1 := hinv2.cbyte_ascii hascii
                  have hle := hinv2.cchar_le
                  have hsome := sliceBytes_ascii src hascii
                    (a := s1.cbyte + 1) (b := s2.cbyte) (by omega) (by omega)
                  rw [hsl] at hsome
                  cases hsome
            | some str =>
                have heq : stringFn loc src start s1 =
                    (.ok ⟨.string str, (start, s3.cchar - 1)⟩, s3) := by
                  simp [stringFn, hcu, hadv, hsl]
                rw [heq]
                exact ntspec_oneTok hinv3 h1 (by omega)

theorem numberDotStep_inv {src : List Char} {sd : ScanState} (h : Inv src sd) :
    Inv src (numberDotStep sd) ∧ sd.cchar ≤ (numberDotStep sd).cchar := by
  obtain ⟨rest, l, cc, cb, nb⟩ := sd
  cases rest with
  | nil => exact ⟨h, le_refl _⟩
  | cons c tail =>
      cases tail with
      | nil => exact ⟨h, le_refl _⟩
      | cons d t =>
          by_cases hcond : (c = '.' && isDigitChar d) = true
          · have hc : c = '.' := by
              have hcopy := hcond
              rw [Bool.and_eq_true, decide_eq_true_eq] at hcopy
              exact hcopy.1
            have heq : numberDotStep ⟨c :: d :: t, l, cc, cb, nb⟩ =
                ScanState.skipDigits ⟨d :: t, l, cc + 1, nb, nb + c.utf8Size⟩ := by
              simp only [numberDotStep, List.drop_succ_cons, List.drop_zero]
              rw [if_pos hcond, hc]
            rw [heq]
            obtain ⟨ha, hb⟩ := skipDigits_inv (h.step l)
            have hb2 : cc + 1 ≤
                (ScanState.skipDigits ⟨d :: t, l, cc + 1, nb, nb + c.utf8Size⟩).cchar := hb
            refine ⟨ha, ?_⟩
            show cc ≤ (ScanState.skipDigits ⟨d :: t, l, cc + 1, nb, nb + c.utf8Size⟩).cchar
            omega
          · have heq : numberDotStep ⟨c :: d :: t, l, cc, cb, nb⟩ =
                ⟨c :: d :: t, l, cc, cb, nb⟩ := by
              simp only [numberDotStep]
              rw [if_neg hcond]
            rw [heq]
            exact ⟨h, le_refl _⟩

theorem numberFn_ntspec {src : List Char} {s s1 : ScanState} {loc : Option String}
    {start : Nat} (hinv : Inv src s1) (h1 : s.cchar ≤ start) (h2 : start < s1.cchar) :
    NTSpec src s (numberFn loc src start s1) := by
  obtain ⟨hd1, hd2⟩ := skipDigits_inv hinv
  obtain ⟨hs2i, hs2m⟩ := numberDotStep_inv hd1
  cases hsl : sliceBytes src s1.cbyte (numberDotStep s1.skipDigits).cbyte with
  | none =>
      have heq : numberFn loc src start s1 =
          (.error ((numberDotStep s1.skipDigits).mkError loc .invalidInput),
            numberDotStep s1.skipDigits) := by
        simp [numberFn, hsl]
      rw [heq]
      refine ⟨hs2i, ?_, ?_, ?_⟩
      · show s.cchar ≤ (numberDotStep s1.skipDigits).cchar
        omega
      · intro t ht
        cases ht
      · intro hascii e he
        exfalso
        have ha1 : s1.cbyte = s1.cchar - 1 := hinv.cbyte_ascii hascii
        have ha2 : (numberDotStep s1.skipDigits).cbyte =
            (numberDotStep s1.skipDigits).cchar - 1 := hs2i.cbyte_ascii hascii
        have hle := hs2i.cchar_le
        have hsome := sliceBytes_ascii src hascii
          (a := s1.cbyte) (b := (numberDotStep s1.skipDigits).cbyte)
          (by omega) (by omega)
        rw [hsl] at hsome
        cases hsome
  | some lex =>
      have heq : numberFn loc src start s1 =
          (.ok ⟨.number (numberValue lex),
            (start, (numberDotStep s1.skipDigits).cchar - 1)⟩,
            numberDotStep s1.skipDigits) := by
        simp [numberFn, hsl]
      rw [heq]
      exact ntspec_oneTok hs2i h1 (by omega)

theorem identFn_ntspec {src : List Char} {s s1 : ScanState} {loc : Option String}
    {start : Nat} (hinv : Inv src s1) (h1 : s.cchar ≤ start) (h2 : start < s1.cchar) :
    NTSpec src s (identFn loc src start s1) := by
  obtain ⟨hd1, hd2⟩ := skipAlnum_inv hinv
  cases hsl : sliceBytes src s1.cbyte s1.skipAlnum.cbyte with
  | none =>
      have heq : identFn loc src start s1 =
          (.error (s1.skipAlnum.mkError loc .invalidInput), s1.skipAlnum) := by
        simp [identFn, hsl]
      rw [heq]
      refine ⟨hd1, ?_, ?_, ?_⟩
      · show s.cchar ≤ s1.skipAlnum.cchar
        omega
      · intro t ht
        cases ht
      · intro hascii e he
        exfalso
        have ha1 : s1.cbyte = s1.cchar - 1 := hinv.cbyte_ascii hascii
        have ha2 : s1.skipAlnum.cbyte = s1.skipAlnum.cchar - 1 := hd1.cbyte_ascii hascii
        have hle := hd1.cchar_le
        have hsome := sliceBytes_ascii src hascii
          (a := s1.cbyte) (b := s1.skipAlnum.cbyte) (by omega) (by omega)
        rw [hsl] at hsome
        cases hsome
  | some lex =>
      have heq : identFn loc src start s1 =
          (.ok ⟨keywordOrIdent lex, (start, s1.skipAlnum.cchar - 1)⟩, s1.skipAlnum) := by
        simp [identFn, hsl]
      rw [heq]
      exact ntspec_oneTok hd1 h1 (by omega)

set_option maxHeartbeats 1000000 in
theorem dispatch_ntspec (loc : Option String) (src : List Char)
    (recur : ScanState → Except LoxError Token × ScanState)
    (hrec : ∀ s2, Inv src s2 → NTSpec src s2 (recur s2)) :
    ∀ (s s1 : ScanState) (c : Char), Inv src s1 → s.cchar < s1.cchar →
      NTSpec src s (dispatch loc src recur s.cchar c s1) := by
  intro s s1 c hinv1 hlt
  by_cases h1 : c = '('
  · have heq : dispatch loc src recur s.cchar c s1 = oneTok .leftParen s.cchar s1 := by
      unfold dispatch
      rw [if_pos h1]
    rw [heq]
    exact ntspec_oneTok hinv1 (le_refl _) hlt
  by_cases h2 : c = ')'
  · have heq : dispatch loc src recur s.cchar c s1 = oneTok .rightParen s.cchar s1 := by
      unfold dispatch
      rw [if_neg h1, if_pos h2]
    rw [heq]
    exact ntspec_oneTok hinv1 (le_refl _) hlt
  by_cases h3 : c = '\x7b'
  · have heq : dispatch loc src recur s.cchar c s1 = oneTok .leftBrace s.cchar s1 := by
      unfold dispatch
      rw [if_neg h1, if_neg h2, if_pos h3]
    rw [heq]
    exact ntspec_oneTok hinv1 (le_refl _) hlt
  by_cases h4 : c = '\x7d'
  · have heq : dispatch loc src recur s.cchar c s1 = oneTok .rightBrace s.cchar s1 := by
      unfold dispatch
      rw [if_neg h1, if_neg h2, if_neg h3, if_pos h4]
    rw [heq]
    exact ntspec_oneTok hinv1 (le_refl _) hlt
  by_cases h5 : c = ','
  · have heq : dispatch loc src recur s.cchar c s1 = oneTok .comma s.cchar s1 := by
      unfold dispatch
      rw [if_neg h1, if_neg h2, if_neg h3, if_neg h4, if_pos h5]
    rw [heq]
    exact ntspec_oneTok hinv1 (le_refl _) hlt
  by_cases h6 : c = '.'
  · have heq : dispatch loc src recur s.cchar c s1 = oneTok .dot s.cchar s1 := by
      unfold dispatch
      rw [if_neg h1, if_neg h2, if_neg h3, if_neg h4, if_neg h5, if_pos h6]
    rw [heq]
    exact ntspec_oneTok hinv1 (le_refl _) hlt
  by_cases h7 : c = '-'
  · have heq : dispatch loc src recur s.cchar c s1 = oneTok .minus s.cchar s1 := by
      unfold dispatch
      rw [if_neg h1, if_neg h2, if_neg h3, if_neg h4, if_neg h5, if_neg h6, if_pos h7]
    rw [heq]
    exact ntspec_oneTok hinv1 (le_refl _) hlt
  by_cases h8 : c = '+'
  · have heq : dispatch loc src recur s.cchar c s1 = oneTok .plus s.cchar s1 := by
      unfold dispatch
      rw [if_neg h1, if_neg h2, if_neg h3, if_neg h4, if_neg h5, if_neg h6, if_neg h7, if_pos h8]
    rw [heq]
    exact ntspec_oneTok hinv1 (le_refl _) hlt
  by_cases h9 : c = ';'
  · have heq : dispatch loc src recur s.cchar c s1 = oneTok .semicolon s.cchar s1 := by
      unfold dispatch
      rw [if_neg h1, if_neg h2, if_neg h3, if_neg h4, if_neg h5, if_neg h6, if_neg h7, if_neg h8, if_pos h9]
    rw [heq]
    exact ntspec_oneTok hinv1 (le_refl _) hlt
  by_cases h10 : c = '*'
  · have heq : dispatch loc src recur s.cchar c s1 = oneTok .star s.cchar s1 := by
      unfold dispatch
      rw [if_neg h1, if_neg h2, if_neg h3, if_neg h4, if_neg h5, if_neg h6, if_neg h7, if_neg h8, if_neg h9, if_pos h10]
    rw [heq]
    exact ntspec_oneTok hinv1 (le_refl _) hlt
  by_cases h11 : c = '!'
  · have heq : dispatch loc src recur s.cchar c s1 = twoTok s1 '=' .bangEqual .bang s.cchar := by
      unfold dispatch
      rw [if_neg h1, if_neg h2, if_neg h3, if_neg h4, if_neg h5, if_neg h6, if_neg h7, if_neg h8, if_neg h9, if_neg h10, if_pos h11]
    rw [heq]
    exact ntspec_twoTok hinv1 (le_refl _) hlt
  by_cases h12 : c = '='
  · have heq : dispatch loc src recur s.cchar c s1 = twoTok s1 '=' .equalEqual .equal s.cchar := by
      unfold dispatch
      rw [if_neg h1, if_neg h2, if_neg h3, if_neg h4, if_neg h5, if_neg h6, if_neg h7, if_neg h8, if_neg h9, if_neg h10, if_neg h11, if_pos h12]
    rw [heq]
    exact ntspec_twoTok hinv1 (le_refl _) hlt
  by_cases h13 : c = '<'
  · have heq : dispatch loc src recur s.cchar c s1 = twoTok s1 '=' .lessEqual .less s.cchar := by
      unfold dispatch
      rw [if_neg h1, if_neg h2, if_neg h3, if_neg h4, if_neg h5, if_neg h6, if_neg h7, if_neg h8, if_neg h9, if_neg h10, if_neg h11, if_neg h12, if_pos h13]
    rw [heq]
    exact ntspec_twoTok hinv1 (le_refl _) hlt
  by_cases h14 : c = '>'
  · have heq : dispatch loc src recur s.cchar c s1 = twoTok s1 '=' .greaterEqual .greater s.cchar := by
      unfold dispatch
      rw [if_neg h1, if_neg h2, if_neg h3, if_neg h4, if_neg h5, if_neg h6, if_neg h7, if_neg h8, if_neg h9, if_neg h10, if_neg h11, if_neg h12, if_neg h13, if_pos h14]
    rw [heq]
    exact ntspec_twoTok hinv1 (le_refl _) hlt
  by_cases h15 : c = '/'
  · obtain ⟨hf1, hf2⟩ := find_spec hinv1 '/'
    cases hfe : s1.find '/' with
    | mk found s2 =>
        rw [hfe] at hf1 hf2
        have hf1b : Inv src s2 := hf1
        have hf2b : s1.cchar ≤ s2.cchar := hf2
        cases found
        · have heq : dispatch loc src recur s.cchar c s1 = oneTok .slash s.cchar s2 := by
            unfold dispatch
            rw [if_neg h1, if_neg h2, if_neg h3, if_neg h4, if_neg h5, if_neg h6, if_neg h7, if_neg h8, if_neg h9, if_neg h10, if_neg h11, if_neg h12, if_neg h13, if_neg h14, if_pos h15, hfe]
          rw [heq]
          exact ntspec_oneTok hf1b (le_refl _) (by omega)
        · have heq : dispatch loc src recur s.cchar c s1 =
              recur (s2.consumeUntil '\n').2 := by
            unfold dispatch
            rw [if_neg h1, if_neg h2, if_neg h3, if_neg h4, if_neg h5, if_neg h6, if_neg h7, if_neg h8, if_neg h9, if_neg h10, if_neg h11, if_neg h12, if_neg h13, if_neg h14, if_pos h15, hfe]
          rw [heq]
          obtain ⟨hc1i, hc2m⟩ := consumeUntil_inv hf1b '\n'
          exact (hrec _ hc1i).of_le (by omega)
  by_cases h16 : c = spaceChar ∨ c = '\r' ∨ c = '\t'
  · have heq : dispatch loc src recur s.cchar c s1 = recur s1 := by
      unfold dispatch
      rw [if_neg h1, if_neg h2, if_neg h3, if_neg h4, if_neg h5, if_neg h6, if_neg h7, if_neg h8, if_neg h9, if_neg h10, if_neg h11, if_neg h12, if_neg h13, if_neg h14, if_neg h15, if_pos h16]
    rw [heq]
    exact (hrec s1 hinv1).of_le (by omega)
  by_cases h17 : c = '\n'
  · have heq : dispatch loc src recur s.cchar c s1 =
        recur { s1 with line := s1.line + 1 } := by
      unfold dispatch
      rw [if_neg h1, if_neg h2, if_neg h3, if_neg h4, if_neg h5, if_neg h6, if_neg h7, if_neg h8, if_neg h9, if_neg h10, if_neg h11, if_neg h12, if_neg h13, if_neg h14, if_neg h15, if_neg h16, if_pos h17]
    rw [heq]
    have hl : ({ s1 with line := s1.line + 1 } : ScanState).cchar = s1.cchar := rfl
    exact (hrec _ (hinv1.withLine _)).of_le (by omega)
  by_cases h18 : c = dquote
  · have heq : dispatch loc src recur s.cchar c s1 = stringFn loc src s.cchar s1 := by
      unfold dispatch
      rw [if_neg h1, if_neg h2, if_neg h3, if_neg h4, if_neg h5, if_neg h6, if_neg h7, if_neg h8, if_neg h9, if_neg h10, if_neg h11, if_neg h12, if_neg h13, if_neg h14, if_neg h15, if_neg h16, if_neg h17, if_pos h18]
    rw [heq]
    exact stringFn_ntspec hinv1 (le_refl _) hlt
  by_cases h19 : isDigitChar c = true
  · have heq : dispatch loc src recur s.cchar c s1 = numberFn loc src s.cchar s1 := by
      unfold dispatch
      rw [if_neg h1, if_neg h2, if_neg h3, if_neg h4, if_neg h5, if_neg h6, if_neg h7, if_neg h8, if_neg h9, if_neg h10, if_neg h11, if_neg h12, if_neg h13, if_neg h14, if_neg h15, if_neg h16, if_neg h17, if_neg h18, if_pos h19]
    rw [heq]
    exact numberFn_ntspec hinv1 (le_refl _) hlt
  by_cases h20 : isAlphaChar c = true
  · have heq : dispatch loc src recur s.cchar c s1 = identFn loc src s.cchar s1 := by
      unfold dispatch
      rw [if_neg h1, if_neg h2, if_neg h3, if_neg h4, if_neg h5, if_neg h6, if_neg h7, if_neg h8, if_neg h9, if_neg h10, if_neg h11, if_neg h12, if_neg h13, if_neg h14, if_neg h15, if_neg h16, if_neg h17, if_neg h18, if_neg h19, if_pos h20]
    rw [heq]
    exact identFn_ntspec hinv1 (le_refl _) hlt
  have heq : dispatch loc src recur s.cchar c s1 =
      (.error (s1.mkError loc (.unexpectedCharacter c)), s1) := by
    unfold dispatch
    rw [if_neg h1, if_neg h2, if_neg h3, if_neg h4, if_neg h5, if_neg h6, if_neg h7, if_neg h8, if_neg h9, if_neg h10, if_neg h11, if_neg h12, if_neg h13, if_neg h14, if_neg h15, if_neg h16, if_neg h17, if_neg h18, if_neg h19, if_neg h20]
  rw [heq]
  exact ntspec_error hinv1 (by omega) (by simp)

theorem nextToken_ntspec (loc : Option String) (src : List Char) :
    ∀ (fuel : Nat) (s : ScanState), Inv src s →
      NTSpec src s (nextToken loc src fuel s) := by
  intro fuel
  induction fuel with
  | zero =>
      intro s h
      exact ntspec_error h (le_refl _) (by simp)
  | succ fuel ih =>
      intro s h
      cases hadv : s.advance with
      | none =>
          have heq : nextToken loc src (fuel + 1) s =
              (.error (s.mkError loc .unexpectedEof), s) := by
            rw [nextToken, hadv]
          rw [heq]
          exact ntspec_error h (le_refl _) (by simp)
      | some p =>
          obtain ⟨c, s1⟩ := p
          obtain ⟨hinv1, hc1⟩ := advance_some h hadv
          have heq : nextToken loc src (fuel + 1) s =
              dispatch loc src (nextToken loc src fuel) s.cchar c s1 := by
            rw [nextToken, hadv]
          rw [heq]
          exact dispatch_ntspec loc src (nextToken loc src fuel) ih s s1 c hinv1
            (by omega)

theorem tryNextToken_spec (loc : Option String) (src : List Char)
    (fuel : Nat) (s : ScanState) (h : Inv src s) :
    Inv src (tryNextToken loc src fuel s).2 ∧
      s.cchar ≤ (tryNextToken loc src fuel s).2.cchar ∧
      (∀ t, (tryNextToken loc src fuel s).1 = some (.ok t) →
        s.cchar ≤ t.span.1 ∧ t.span.1 < (tryNextToken loc src fuel s).2.cchar) ∧
      (AsciiSrc src → ∀ e, (tryNextToken loc src fuel s).1 = some (.error e) →
        e.kind ≠ .invalidInput) := by
  have hnt := nextToken_ntspec loc src fuel s h
  cases hr : nextToken loc src fuel s with
  | mk r s2 =>
      rw [hr] at hnt
      obtain ⟨ha, hb, hok, herr⟩ := hnt
      have hinv2 : Inv src s2 := ha
      have hm2 : s.cchar ≤ s2.cchar := hb
      cases r with
      | ok t =>
          have heq : tryNextToken loc src fuel s = (some (.ok t), s2) := by
            simp [tryNextToken, hr]
          rw [heq]
          refine ⟨hinv2, hm2, ?_, ?_⟩
          · intro u hu
            cases hu
            exact hok t rfl
          · intro _ e he
            cases he
      | error e0 =>
          by_cases he0 : e0.kind = .unexpectedEof
          · have heq : tryNextToken loc src fuel s = (none, s2) := by
              simp [tryNextToken, hr, he0]
            rw [heq]
            refine ⟨hinv2, hm2, ?_, ?_⟩
            · intro u hu
              cases hu
            · intro _ e he
              cases he
          · have heq : tryNextToken loc src fuel s = (some (.error e0), s2) := by
              simp [tryNextToken, hr, he0]
            rw [heq]
            refine ⟨hinv2, hm2, ?_, ?_⟩
            · intro u hu
              cases hu
            · intro hascii e he
              cases he
              exact herr hascii e0 rfl

theorem okTokens_nil : okTokens [] = [] := rfl

theorem okTokens_cons_ok (t : Token) (L : List (Except LoxError Token)) :
    okTokens (.ok t :: L) = t :: okTokens L := rfl

theorem okTokens_cons_error (e : LoxError) (L : List (Except LoxError Token)) :
    okTokens (.error e :: L) = okTokens L := rfl

theorem scanLoop_spec (loc : Option String) (src : List Char) :
    ∀ (fuel : Nat) (s : ScanState), Inv src s →
      (∀ t ∈ okTokens (scanLoop loc src fuel s), s.cchar ≤ t.span.1) ∧
      List.Chain' (fun a b => a.span.1 ≤ b.span.1) (okTokens (scanLoop loc src fuel s)) ∧
      (AsciiSrc src → ∀ e, Except.error e ∈ scanLoop loc src fuel s →
        e.kind ≠ LoxErrorKind.invalidInput) := by
  intro fuel
  induction fuel with
  | zero =>
      intro s h
      refine ⟨?_, ?_, ?_⟩ <;> simp [scanLoop, okTokens]
  | succ fuel ih =>
      intro s h
      cases hrest : s.rest with
      | nil =>
          have heq : scanLoop loc src (fuel + 1) s =
              [.ok ⟨.eof, (utf8ByteLen src, utf8ByteLen src)⟩] := by
            rw [scanLoop, hrest]
          rw [heq]
          have hcc : s.cchar ≤ utf8ByteLen src :=
            le_trans h.cchar_le (length_le_utf8ByteLen src)
          refine ⟨?_, ?_, ?_⟩
          · intro t ht
            rw [okTokens_cons_ok, okTokens_nil, List.mem_singleton] at ht
            subst ht
            exact hcc
          · rw [okTokens_cons_ok, okTokens_nil]
            exact List.chain'_singleton _
          · intro _ e he
            simp at he
      | cons a as =>
          obtain ⟨ht1, ht2, ht3, ht4⟩ :=
            tryNextToken_spec loc src (s.rest.length + 1) s h
          rw [hrest] at ht1 ht2 ht3 ht4
          cases htry : tryNextToken loc src ((a :: as).length + 1) s with
          | mk item s2 =>
              rw [htry] at ht1 ht2 ht3 ht4
              have hinv2 : Inv src s2 := ht1
              have hm2 : s.cchar ≤ s2.cchar := ht2
              obtain ⟨ih1, ih2, ih3⟩ := ih s2 hinv2
              cases item with
              | none =>
                  have heq : scanLoop loc src (fuel + 1) s = [] := by
                    rw [scanLoop, hrest, htry]
                  rw [heq]
                  refine ⟨?_, ?_, ?_⟩ <;> simp [okTokens]
              | some it =>
                  have heq : scanLoop loc src (fuel + 1) s =
                      it :: scanLoop loc src fuel s2 := by
                    rw [scanLoop, hrest, htry]
                  rw [heq]
                  cases it with
                  | ok t =>
                      obtain ⟨hta, htb⟩ := ht3 t rfl
                      have htb2 : t.span.1 < s2.cchar := htb
                      refine ⟨?_, ?_, ?_⟩
                      · intro u hu
                        rw [okTokens_cons_ok, List.mem_cons] at hu
                        rcases hu with rfl | hu
                        · exact hta
                        · exact le_trans hm2 (ih1 u hu)
                      · rw [okTokens_cons_ok]
                        refine List.chain'_cons'.mpr ⟨?_, ih2⟩
                        intro y hy
                        have hym := List.mem_of_mem_head? hy
                        have hy2 := ih1 y hym
                        omega
                      · intro hascii e he
                        rw [List.mem_cons] at he
                        rcases he with he | he
                        · simp at he
                        · exact ih3 hascii e he
                  | error e0 =>
                      refine ⟨?_, ?_, ?_⟩
                      · intro u hu
                        rw [okTokens_cons_error] at hu
                        exact le_trans hm2 (ih1 u hu)
                      · rw [okTokens_cons_error]
                        exact ih2
                      · intro hascii e he
                        rw [List.mem_cons] at he
                        rcases he with he | he
                        · have he2 : e = e0 := by injection he
                          subst he2
                          exact ht4 hascii e rfl
                        · exact ih3 hascii e he

/-- **C4**.  The spans of the tokens a scan yields are monotonically
non-decreasing in yield order: each token's span starts at or after the
previous token's span start (errors are not tokens and carry no spans in
the stream). -/
theorem scan_spans_monotone (loc : Option String) (src : List Char) :
    List.Chain' (fun a b => a.span.1 ≤ b.span.1) (okTokens (scanList loc src)) :=
  (scanLoop_spec loc src (src.length + 1) ⟨src, 0, 0, 0, 0⟩ (inv_init src)).2.1

/-- **C2** (amended).  On a source whose characters are all single UTF-8
bytes (ASCII), the scan never yields the defensive `InvalidInput`
(`InvalidInternalSlice`) error: every internal byte slice for string,
number and identifier lexemes succeeds. -/
theorem scan_ascii_no_invalid_slice (loc : Option String) (src : List Char)
    (h : AsciiSrc src) :
    ∀ e, Except.error e ∈ scanList loc src → e.kind ≠ LoxErrorKind.invalidInput :=
  (scanLoop_spec loc src (src.length + 1) ⟨src, 0, 0, 0, 0⟩ (inv_init src)).2.2 h

/-- Witness for the amended C2 at the concrete ASCII source `@`, whose scan
yields an `UnexpectedCharacter` error. -/
theorem scan_ascii_no_invalid_slice_witness :
    (⟨.unexpectedCharacter '@', none, 0, 0⟩ : LoxError).kind ≠
      LoxErrorKind.invalidInput :=
  scan_ascii_no_invalid_slice none ['@']
    (by
      intro c hc
      rw [List.mem_singleton] at hc
      subst hc
      decide) _ (by decide)

theorem takeBytes_zero (xs : List Char) : takeBytes xs 0 = some [] := by
  cases xs <;> rfl

theorem takeBytes_cons_succ (c : Char) (cs : List Char) (n : Nat) :
    takeBytes (c :: cs) (n + 1) =
      if c.utf8Size ≤ n + 1 then (takeBytes cs (n + 1 - c.utf8Size)).map (c :: ·)
      else none := rfl

theorem dropBytes_zero (xs : List Char) : dropBytes xs 0 = some xs := by
  cases xs <;> rfl

theorem dropBytes_cons_succ (c : Char) (cs : List Char) (n : Nat) :
    dropBytes (c :: cs) (n + 1) =
      if c.utf8Size ≤ n + 1 then dropBytes cs (n + 1 - c.utf8Size) else none := rfl

theorem consumeUntilAux_run (e : Char) (post : List Char) :
    ∀ (content : List Char), e ∉ content →
      ∀ (l cc cb nb : Nat), ∃ l2,
        consumeUntilAux e (content ++ e :: post) l cc cb nb =
          (true, ⟨e :: post, l2, cc + content.length, lastByteAux cb nb content,
            nb + utf8ByteLen content⟩) := by
  intro content
  induction content with
  | nil =>
      intro _ l cc cb nb
      refine ⟨l, ?_⟩
      simp [consumeUntilAux, lastByteAux, utf8ByteLen]
  | cons c cs ih =>
      intro hmem l cc cb nb
      have hc : ¬(c = e) := by
        intro hcontra
        exact hmem (by simp [hcontra])
      have hcs : e ∉ cs := fun hx => hmem (by simp [hx])
      obtain ⟨l2, hl2⟩ :=
        ih hcs (if c = '\n' then l + 1 else l) (cc + 1) nb (nb + c.utf8Size)
      refine ⟨l2, ?_⟩
      rw [List.cons_append, consumeUntilAux, if_neg hc, hl2]
      have h1 : cc + 1 + cs.length = cc + (cs.length + 1) := by omega
      have h2 : nb + c.utf8Size + utf8ByteLen cs =
          nb + (c.utf8Size + utf8ByteLen cs) := by omega
      rw [show lastByteAux cb nb (c :: cs) =
          lastByteAux nb (nb + c.utf8Size) cs from rfl]
      rw [List.length_cons, utf8ByteLen_cons, h1, h2]

theorem lastByteAux_nonempty :
    ∀ (content : List Char), content ≠ [] → ∀ (cb nb : Nat),
      lastByteAux cb nb content = nb + utf8ByteLen content.dropLast := by
  intro content
  induction content with
  | nil =>
      intro hne
      exact absurd rfl hne
  | cons c cs ih =>
      intro _ cb nb
      cases cs with
      | nil => simp [lastByteAux, utf8ByteLen]
      | cons d t =>
          rw [show lastByteAux cb nb (c :: d :: t) =
              lastByteAux nb (nb + c.utf8Size) (d :: t) from rfl]
          rw [ih (by simp) nb (nb + c.utf8Size)]
          have hdl : (c :: d :: t).dropLast = c :: (d :: t).dropLast := by simp
          rw [hdl, utf8ByteLen_cons]
          omega

theorem takeBytes_prefix_content (rest2 : List Char) :
    ∀ (content : List Char), content ≠ [] → ∀ v,
      takeBytes (content ++ rest2) (utf8ByteLen content.dropLast + 1) = some v →
      v = content := by
  intro content
  induction content with
  | nil =>
      intro hne
      exact absurd rfl hne
  | cons a t ih =>
      intro _ v hv
      cases t with
      | nil =>
          rw [show ([a] : List Char).dropLast = [] from rfl, utf8ByteLen_nil,
            List.cons_append, List.nil_append] at hv
          by_cases ha : a.utf8Size ≤ 0 + 1
          · have ha1 : a.utf8Size = 1 := by
              have := Char.utf8Size_pos a
              omega
            rw [takeBytes_cons_succ, if_pos ha, ha1] at hv
            rw [show (0 + 1 - 1 : Nat) = 0 from by omega, takeBytes_zero] at hv
            simp only [Option.map_some', Option.some.injEq] at hv
            exact hv.symm
          · rw [takeBytes_cons_succ, if_neg ha] at hv
            cases hv
      | cons b t2 =>
          have hdl : (a :: b :: t2).dropLast = a :: (b :: t2).dropLast := by simp
          rw [hdl, utf8ByteLen_cons, List.cons_append] at hv
          have hsz : a.utf8Size ≤ a.utf8Size + utf8ByteLen (b :: t2).dropLast + 1 := by
            omega
          rw [takeBytes_cons_succ, if_pos hsz] at hv
          rw [show a.utf8Size + utf8ByteLen (b :: t2).dropLast + 1 - a.utf8Size =
              utf8ByteLen (b :: t2).dropLast + 1 from by omega] at hv
          rw [Option.map_eq_some'] at hv
          obtain ⟨w, hw1, hw2⟩ := hv
          have hwc : w = b :: t2 := ih (by simp) w hw1
          rw [← hw2, hwc]

theorem dispatch_dquote (loc : Option String) (src : List Char)
    (recur : ScanState → Except LoxError Token × ScanState)
    (start : Nat) (s1 : ScanState) :
    dispatch loc src recur start dquote s1 = stringFn loc src start s1 := by
  unfold dispatch
  rw [if_neg (by decide), if_neg (by decide), if_neg (by decide), if_neg (by decide),
    if_neg (by decide), if_neg (by decide), if_neg (by decide), if_neg (by decide),
    if_neg (by decide), if_neg (by decide), if_neg (by decide), if_neg (by decide),
    if_neg (by decide), if_neg (by decide), if_neg (by decide), if_neg (by decide),
    if_neg (by decide), if_pos rfl]

/-- **C5**.  For a source that is a quote, then quote-free content, then a
quote and anything after, whenever the scan's first item is a `String`
token, that token's value is exactly the content strictly between the two
quotes and its span covers the full quoted lexeme including both quotes:
`[0, content.length + 1]`.  (In particular scanning `"abc"` yields
`String("abc")` with span `[0, 4]` — see the witness.) -/
theorem string_token_value_and_span (loc : Option String) (content post : List Char)
    (h : dquote ∉ content) :
    ∀ v sp,
      (scanList loc (dquote :: (content ++ dquote :: post))).head? =
        some (.ok ⟨.string v, sp⟩) →
      v = content ∧ sp = (0, content.length + 1) := by
  intro v sp hv
  obtain ⟨l2, hrun⟩ := consumeUntilAux_run dquote post content h 0 1 0 1
  have hnt : nextToken loc (dquote :: (content ++ dquote :: post))
      ((dquote :: (content ++ dquote :: post)).length + 1)
      ⟨dquote :: (content ++ dquote :: post), 0, 0, 0, 0⟩ =
      stringFn loc (dquote :: (content ++ dquote :: post)) 0
        ⟨content ++ dquote :: post, 0, 1, 0, 1⟩ := by
    rw [nextToken]
    rw [show (⟨dquote :: (content ++ dquote :: post), 0, 0, 0, 0⟩ : ScanState).advance =
        some (dquote, ⟨content ++ dquote :: post, 0, 1, 0, 1⟩) from rfl]
    exact dispatch_dquote loc _ _ 0 _
  have hcu : (⟨content ++ dquote :: post, 0, 1, 0, 1⟩ : ScanState).consumeUntil dquote =
      (true, ⟨dquote :: post, l2, 1 + content.length, lastByteAux 0 1 content,
        1 + utf8ByteLen content⟩) := hrun
  have hadv2 : (⟨dquote :: post, l2, 1 + content.length, lastByteAux 0 1 content,
      1 + utf8ByteLen content⟩ : ScanState).advance =
      some (dquote, ⟨post, l2, 1 + content.length + 1, 1 + utf8ByteLen content,
        1 + utf8ByteLen content + 1⟩) := rfl
  have hsf : stringFn loc (dquote :: (content ++ dquote :: post)) 0
      ⟨content ++ dquote :: post, 0, 1, 0, 1⟩ =
      (match sliceBytes (dquote :: (content ++ dquote :: post)) (0 + 1)
          (lastByteAux 0 1 content) with
        | none =>
            (.error ((⟨post, l2, 1 + content.length + 1, 1 + utf8ByteLen content,
              1 + utf8ByteLen content + 1⟩ : ScanState).mkError loc .invalidInput),
              (⟨post, l2, 1 + content.length + 1, 1 + utf8ByteLen content,
                1 + utf8ByteLen content + 1⟩ : ScanState))
        | some str =>
            (.ok ⟨.string str, (0, 1 + content.length + 1 - 1)⟩,
              (⟨post, l2, 1 + content.length + 1, 1 + utf8ByteLen content,
                1 + utf8ByteLen content + 1⟩ : ScanState))) := by
    simp only [stringFn, hcu, hadv2]
  cases hsl : sliceBytes (dquote :: (content ++ dquote :: post)) (0 + 1)
      (lastByteAux 0 1 content) with
  | none =>
      rw [hsl] at hsf
      have htnt : tryNextToken loc (dquote :: (content ++ dquote :: post))
          ((dquote :: (content ++ dquote :: post)).length + 1)
          ⟨dquote :: (content ++ dquote :: post), 0, 0, 0, 0⟩ =
          (some (.error ((⟨post, l2, 1 + content.length + 1, 1 + utf8ByteLen content,
              1 + utf8ByteLen content + 1⟩ : ScanState).mkError loc .invalidInput)),
            (⟨post, l2, 1 + content.length + 1, 1 + utf8ByteLen content,
              1 + utf8ByteLen content + 1⟩ : ScanState)) := by
        rw [tryNextToken, hnt, hsf]
        rfl
      rw [scanList, scanLoop] at hv
      simp only [htnt] at hv
      simp at hv
  | some str =>
      rw [hsl] at hsf
      have htnt : tryNextToken loc (dquote :: (content ++ dquote :: post))
          ((dquote :: (content ++ dquote :: post)).length + 1)
          ⟨dquote :: (content ++ dquote :: post), 0, 0, 0, 0⟩ =
          (some (.ok ⟨.string str, (0, 1 + content.length + 1 - 1)⟩),
            (⟨post, l2, 1 + content.length + 1, 1 + utf8ByteLen content,
              1 + utf8ByteLen content + 1⟩ : ScanState)) := by
        rw [tryNextToken, hnt, hsf]
      rw [scanList, scanLoop] at hv
      simp only [htnt] at hv
      simp only [List.head?_cons, Option.some.injEq] at hv
      have hstr : str = v ∧ (0, 1 + content.length + 1 - 1) = sp := by
        have hv2 := hv
        injection hv2 with hv3
        injection hv3 with hk hs
        injection hk with hk2
        exact ⟨hk2, hs⟩
      obtain ⟨hstr1, hstr2⟩ := hstr
      have hsp : sp = (0, content.length + 1) := by
        rw [← hstr2]
        have : 1 + content.length + 1 - 1 = content.length + 1 := by omega
        rw [this]
      refine ⟨?_, hsp⟩
      by_cases hce : content = []
      · subst hce
        have hval : sliceBytes (dquote :: ([] ++ dquote :: post)) (0 + 1)
            (lastByteAux 0 1 []) = some [] := rfl
        rw [hval] at hsl
        injection hsl with hsl2
        rw [← hstr1, ← hsl2]
      · rw [lastByteAux_nonempty content hce 0 1] at hsl
        rw [sliceBytes, if_pos (by omega)] at hsl
        have hdropeq : dropBytes (dquote :: (content ++ dquote :: post)) (0 + 1) =
            some (content ++ dquote :: post) := by
          rw [dropBytes_cons_succ, if_pos (by decide)]
          rw [show (0 + 1 - Char.utf8Size dquote : Nat) = 0 from by decide]
          exact dropBytes_zero _
        rw [hdropeq, Option.some_bind] at hsl
        rw [show 1 + utf8ByteLen content.dropLast + 1 - (0 + 1) =
            utf8ByteLen content.dropLast + 1 from by omega] at hsl
        rw [← hstr1]
        exact takeBytes_prefix_content (dquote :: post) content hce str hsl

/-- Witness for C5 at content `abc`, empty tail: scanning `"abc"` yields a
`String("abc")` token with span `[0, 4]` as its first item. -/
theorem string_token_value_and_span_witness :
    "abc".toList = "abc".toList ∧
      ((0, 4) : Nat × Nat) = (0, "abc".toList.length + 1) :=
  string_token_value_and_span none ("abc".toList) [] (by decide)
    ("abc".toList) (0, 4) (by rfl)

end Loxide
